import Mathlib

/-!
Verification of the CSM applications core (character chat, voice game, story
generator, shared audio utilities) against its natural-language specification.

Text is modelled as `List Char`, audio sample buffers as `List Int` (sample
values are opaque to the core: it only concatenates buffers and generates
silence), and the external generation boundary as an explicit fallible
function argument.  Python exceptions are modelled with `Except`, and methods
that mutate `self` are modelled as explicit state-passing functions returning
the new state, mirroring the source line by line.
-/

namespace CSMApps
/-- Modelled from the spec: the `Segment` value from the external `generator`
module (not under `src/`).  The spec's data model gives it
`{ text, speakerId, audio, sampleRate }`; the application code under `src/`
constructs it with `Segment(text=..., speaker=..., audio=...)` and never reads
`sampleRate`. -/
structure Segment where
  text : List Char
  speaker : Nat
  audio : List Int
  sampleRate : Nat
deriving DecidableEq

/-- `torch.cat(tensors, dim=0)`: concatenates a list of 1-D tensors; raises
`RuntimeError` («expected a non-empty list of Tensors») on the empty list,
modelled as `none`. -/
def torchCat (tensors : List (List Int)) : Option (List Int) :=
  if tensors.isEmpty then none else some tensors.flatten

/-- `audio_utils.concatenate_audio_segments`:
`return torch.cat([seg.audio for seg in segments], dim=0)`. -/
def concatenate_audio_segments (segments : List Segment) : Option (List Int) :=
  torchCat (segments.map Segment.audio)

/-- `audio_utils.add_silence`:
`num_samples = int(duration_ms * sample_rate / 1000); return torch.zeros(num_samples)`. -/
def add_silence (duration_ms sample_rate : Nat) : List Int :=
  List.replicate (duration_ms * sample_rate / 1000) 0

/-- `audio_utils.concatenate_with_pauses`: empty input returns an empty tensor;
otherwise starts from `segments[0].audio` and folds
`result = torch.cat([result, silence, segment.audio])` over `segments[1:]`,
where `silence = add_silence(pause_duration_ms, 24000)` — the source hardcodes
`sample_rate = 24000  # CSM default sample rate` instead of reading it from the
segments. -/
def concatenate_with_pauses (segments : List Segment) (pause_duration_ms : Nat) : List Int :=
  match segments with
  | [] => []
  | first :: rest =>
    let sample_rate := 24000
    let silence := add_silence pause_duration_ms sample_rate
    rest.foldl (fun result segment => result ++ silence ++ segment.audio) first.audio

/-- The external generation boundary:
`generator.generate(text=..., speaker=..., context=..., max_audio_length_ms=...)`.
An opaque, fallible function returning raw audio samples. -/
def GenFn : Type := List Char → Nat → List Segment → Nat → Except String (List Int)

/-- The Python exceptions surfaced by the application core: `RuntimeError`
(«... not initialized. Call initialize() first.»), `ValueError`
(«Character ID ... not found»), an exception propagated unchanged from the
generation boundary, and `torch.cat` on an empty list. -/
inductive AppError where
  | notInitialized : AppError
  | unknownSpeaker : Nat → AppError
  | generationFailure : String → AppError
  | torchCatEmpty : AppError
deriving DecidableEq

/-- `Character.respond` context assembly:
`full_context = [self.prompt]`, then `full_context.extend(self._conversation_history)`
when `use_history`, then `full_context.extend(context)` when given. -/
def characterFullContext (prompt : Segment) (history extra : List Segment)
    (use_history : Bool) : List Segment :=
  [prompt] ++ (if use_history then history else []) ++ extra

/-- `VoiceGame.character_speak` context assembly:
`full_context = [self.characters[character_id]["prompt"]]`, then
`full_context.extend(self.dialogue_history[-3:])` when the history is non-empty,
then `full_context.extend(context)` when given. -/
def voiceFullContext (prompt : Segment) (dialogue_history extra : List Segment) :
    List Segment :=
  [prompt]
    ++ (if dialogue_history.isEmpty then []
        else dialogue_history.drop (dialogue_history.length - 3))
    ++ extra

/-- `StoryGenerator.generate_story_audio` per-chunk context:
`context + audio_segments[-2:]` where `context = [self.narrator_prompt]`. -/
def storyChunkContext (context : List Segment) (audio_segments : List Segment) :
    List Segment :=
  context ++ audio_segments.drop (audio_segments.length - 2)

/-- `Character` state: `self.generator` and `self.prompt` are `None` until
`initialize()` binds the model and creates the voice prompt (they are set
together there); `self._conversation_history` starts empty. `sample_rate` is
the rate reported by the generation boundary at initialization. -/
structure CharacterState where
  speaker_id : Nat
  generator : Option GenFn
  prompt : Option Segment
  sample_rate : Nat
  conversation_history : List Segment

/-- `Character.respond`: raises `RuntimeError` when not initialized, builds
`full_context`, invokes the generation boundary with
`max_audio_length_ms=10_000`, wraps the result in a `Segment`, appends it to
the conversation history and returns it.  The returned state is the value of
`self` after the call: unchanged on every error path, since the only mutation
(`self._conversation_history.append(response)`) comes after the generation
call. -/
def Character.respond (st : CharacterState) (text : List Char) (context : List Segment)
    (use_history : Bool) : Except AppError Segment × CharacterState :=
  match st.generator, st.prompt with
  | some g, some prompt =>
    let full_context := characterFullContext prompt st.conversation_history context use_history
    match g text st.speaker_id full_context 10000 with
    | .error e => (.error (.generationFailure e), st)
    | .ok audio =>
      let response : Segment :=
        { text := text, speaker := st.speaker_id, audio := audio,
          sampleRate := st.sample_rate }
      (.ok response,
       { st with conversation_history := st.conversation_history ++ [response] })
  | _, _ => (.error .notInitialized, st)

/-- One character entry of `VoiceGame.characters`: `{"name": ..., "prompt": Segment(...)}`. -/
structure VGCharacter where
  name : List Char
  prompt : Segment
deriving DecidableEq

/-- `VoiceGame` state: `self.characters` is the id → character dictionary
(empty until `initialize()`), `self.generator` is `None` until then, and
`self.dialogue_history` starts empty. -/
structure VoiceGameState where
  generator : Option GenFn
  characters : List (Nat × VGCharacter)
  sample_rate : Nat
  dialogue_history : List Segment

/-- `VoiceGame.character_speak`: raises `RuntimeError` when not initialized,
raises `ValueError` when `character_id not in self.characters`, builds
`full_context`, invokes the generation boundary with
`max_audio_length_ms=10_000`, appends the new segment to `dialogue_history`
and returns it.  State is returned explicitly; it is unchanged on every error
path since the history append comes after the generation call. -/
def VoiceGame.character_speak (st : VoiceGameState) (character_id : Nat)
    (text : List Char) (context : List Segment) :
    Except AppError Segment × VoiceGameState :=
  match st.generator with
  | none => (.error .notInitialized, st)
  | some g =>
    match st.characters.lookup character_id with
    | none => (.error (.unknownSpeaker character_id), st)
    | some ch =>
      let full_context := voiceFullContext ch.prompt st.dialogue_history context
      match g text character_id full_context 10000 with
      | .error e => (.error (.generationFailure e), st)
      | .ok audio =>
        let segment : Segment :=
          { text := text, speaker := character_id, audio := audio,
            sampleRate := st.sample_rate }
        (.ok segment,
         { st with dialogue_history := st.dialogue_history ++ [segment] })

/-- `StoryGenerator` state: `self.generator` and `self.narrator_prompt` are
`None` until `initialize()` (set together there). -/
structure StoryGeneratorState where
  generator : Option GenFn
  narrator_prompt : Option Segment
  sample_rate : Nat

/-- The chunk loop of `StoryGenerator.generate_story_audio`: for each chunk,
invoke the generation boundary with `context + audio_segments[-2:]` and append
the new segment to `audio_segments`; the first failure aborts the loop and
propagates. -/
def storyLoop (g : GenFn) (narrator : Segment) (sr max_chunk_length : Nat) :
    List (List Char) → List Segment → Except AppError (List Segment)
  | [], audio_segments => .ok audio_segments
  | chunk :: rest, audio_segments =>
    match g chunk 0 (storyChunkContext [narrator] audio_segments) max_chunk_length with
    | .error e => .error (.generationFailure e)
    | .ok audio =>
      storyLoop g narrator sr max_chunk_length rest
        (audio_segments ++ [{ text := chunk, speaker := 0, audio := audio, sampleRate := sr }])

/-- Python whitespace, as recognized by `str.split()` / `str.strip()`. -/
def isWs (c : Char) : Bool :=
  c = ' ' || c = '\t' || c = '\n' || c = '\x0d' || c = '\x0b' || c = '\x0c'

/-- Terminal punctuation of the sentence policy: the regex class `[.!?]`. -/
def isTerminal (c : Char) : Bool :=
  c = '.' || c = '!' || c = '?'

/-- Python `str.strip()`: drop whitespace from both ends. -/
def strip (s : List Char) : List Char :=
  ((s.dropWhile isWs).reverse.dropWhile isWs).reverse

/-- Python `story_text.split("\n\n")`: split at each non-overlapping occurrence
of the two-character separator, scanning left to right; `acc` holds the
(reversed) characters of the piece being built. -/
def splitParas : List Char → List Char → List (List Char)
  | '\n' :: '\n' :: t, acc => acc.reverse :: splitParas t []
  | c :: t, acc => splitParas t (c :: acc)
  | [], acc => [acc.reverse]

/-- Python `re.split(r'[.!?]+', story_text)`: split at each maximal run of
terminal punctuation.  The state is `some acc` while building a fragment
(characters in reverse) and `none` while inside a punctuation run. -/
def splitSentsAux : List Char → Option (List Char) → List (List Char)
  | [], some acc => [acc.reverse]
  | [], none => [[]]
  | c :: t, some acc =>
    if isTerminal c then acc.reverse :: splitSentsAux t none
    else splitSentsAux t (some (c :: acc))
  | c :: t, none =>
    if isTerminal c then splitSentsAux t none
    else splitSentsAux t (some [c])

/-- `re.split(r'[.!?]+', story_text)`. -/
def splitSents (s : List Char) : List (List Char) :=
  splitSentsAux s (some [])

/-- Python `story_text.split()`: the maximal whitespace-free runs, in order,
empty runs dropped. -/
def words : List Char → List (List Char)
  | [] => []
  | c :: s =>
    if isWs c then words s
    else
      match s with
      | [] => [[c]]
      | d :: _ =>
        if isWs d then [c] :: words s
        else
          match words s with
          | [] => [[c]]
          | w :: ws => (c :: w) :: ws

/-- Python `" ".join(chunks)`: interleave a single space between the pieces. -/
def joinSp : List (List Char) → List Char
  | [] => []
  | [g] => g
  | g :: gs => g ++ ' ' :: joinSp gs

/-- The greedy word-packing loop of the `length` policy (`max_chars = 200`):
start a new chunk when adding the next word would exceed the budget and the
current chunk is non-empty; the running length counts each added word plus one
separator, except that a chunk-opening word added on overflow is counted
without the separator (exactly as the source does). -/
def packWords : List (List Char) → List (List Char) → Nat → List (List (List Char))
  | [], current_chunk, _ => if current_chunk.isEmpty then [] else [current_chunk]
  | word :: ws, current_chunk, current_length =>
    if current_length + word.length > 200 ∧ ¬current_chunk.isEmpty then
      current_chunk :: packWords ws [word] word.length
    else
      packWords ws (current_chunk ++ [word]) (current_length + word.length + 1)

/-- `StoryGenerator._split_story`: dispatch on the chunking method; any
unrecognized method silently falls back to returning the whole text as a
single chunk. -/
def split_story (story_text : List Char) (method : String) : List (List Char) :=
  if method = "paragraph" then
    ((splitParas story_text []).map strip).filter (fun p => ¬p.isEmpty)
  else if method = "sentence" then
    ((splitSents story_text).filter (fun s => ¬(strip s).isEmpty)).map
      (fun s => strip s ++ ['.'])
  else if method = "length" then
    (packWords (words story_text) [] 0).map joinSp
  else
    [story_text]

/-- `StoryGenerator.generate_story_audio`: raises `RuntimeError` when not
initialized, splits the story, runs the chunk loop, then concatenates all
generated audio with `concatenate_audio_segments`. -/
def StoryGenerator.generate_story_audio (st : StoryGeneratorState)
    (story_text : List Char) (chunk_method : String) (max_chunk_length : Nat) :
    Except AppError (List Int × List Segment) :=
  match st.generator, st.narrator_prompt with
  | some g, some narrator =>
    let chunks := split_story story_text chunk_method
    match storyLoop g narrator st.sample_rate max_chunk_length chunks [] with
    | .error e => .error e
    | .ok audio_segments =>
      match concatenate_audio_segments audio_segments with
      | none => .error .torchCatEmpty
      | some full_audio => .ok (full_audio, audio_segments)
  | _, _ => .error .notInitialized

/-- A generation boundary that always succeeds with a one-sample buffer
(used to drive a concrete conversation). -/
def demoGen : GenFn := fun _ _ _ _ => .ok [0]

/-- A concrete reference (voice-prompt) segment. -/
def demoPrompt : Segment :=
  { text := ['r', 'e', 'f'], speaker := 0, audio := [0], sampleRate := 24000 }

/-- A concrete initialized `Character` with empty conversation history. -/
def demoCharacter : CharacterState :=
  { speaker_id := 0, generator := some demoGen, prompt := some demoPrompt,
    sample_rate := 24000, conversation_history := [] }

/-- Iterate `Character.respond`, keeping the state. -/
def respondTimes : Nat → CharacterState → CharacterState
  | 0, st => st
  | n + 1, st => respondTimes n (Character.respond st ['h', 'i'] [] true).2

/-- A generation boundary that always fails. -/
def failGen : GenFn := fun _ _ _ _ => .error "model failure"

/-- A concrete `VoiceGame` with one registered character (id 0) whose
generation boundary always fails. -/
def demoVoiceGame : VoiceGameState :=
  { generator := some failGen, characters := [(0, VGCharacter.mk ['n'] demoPrompt)],
    sample_rate := 24000, dialogue_history := [] }

/-- A concrete initialized `Character` whose generation boundary always fails. -/
def demoFailCharacter : CharacterState :=
  { speaker_id := 0, generator := some failGen, prompt := some demoPrompt,
    sample_rate := 24000, conversation_history := [] }

/-- A tiny heap of Python list objects, for the one aliasing question the
spec raises: cells indexed by allocation order. -/
abbrev Heap := List (List Segment)

/-- A `Character` whose mutable `_conversation_history` list object lives in
the heap at index `histRef`. -/
structure CharacterRef where
  prompt : Segment
  histRef : Nat

/-- Python `list.copy()`: allocate a fresh cell holding the same contents and
return a reference to the new cell. -/
def pyListCopy (h : Heap) (r : Nat) : Heap × Nat :=
  (h ++ [h.getD r []], h.length)

/-- `Character.get_conversation_history`:
`return self._conversation_history.copy()`. -/
def get_conversation_history (h : Heap) (c : CharacterRef) : Heap × Nat :=
  pyListCopy h c.histRef

/-- An arbitrary in-place mutation of the list object at `r`: appending,
removing and reordering entries are all instances of replacing the cell's
contents. -/
def heapWrite (h : Heap) (r : Nat) (v : List Segment) : Heap :=
  h.set r v

/-- `u` occurs as a contiguous substring of `v`. -/
def SubstrOf (u v : List Char) : Prop :=
  ∃ p s, v = p ++ u ++ s

/-- The whitespace-normalized form of a text: its words joined by single
spaces (leading/trailing whitespace dropped, internal runs collapsed). -/
def normalizeWs (s : List Char) : List Char :=
  joinSp (words s)

/-- Length of the fold used by `concatenate_with_pauses`. -/
theorem foldl_pause_length (rest : List Segment) (init sil : List Int) :
    (rest.foldl (fun result segment => result ++ sil ++ segment.audio) init).length
      = init.length + (rest.map (fun s => sil.length + s.audio.length)).sum := by
  induction rest generalizing init with
  | nil => simp
  | cons s rest ih =>
    simp only [List.foldl_cons, List.map_cons, List.sum_cons, ih]
    simp [List.length_append]
    omega

/-- Sum of a mapped constant-plus-function splits into a product and a sum. -/
theorem sum_map_const_add (l : List Segment) (c : Nat) (f : Segment → Nat) :
    (l.map (fun s => c + f s)).sum = l.length * c + (l.map f).sum := by
  induction l with
  | nil => simp
  | cons s l ih =>
    simp only [List.map_cons, List.sum_cons, ih, List.length_cons]
    ring

/-- Claim C8 counterexample: `concatenate_audio_segments([])` does not return an
empty buffer — `torch.cat` on an empty list raises, modelled as `none`. -/
theorem concatenate_empty_counterexample :
    concatenate_audio_segments [] = none ∧ concatenate_audio_segments [] ≠ some [] := by
  constructor
  · rfl
  · intro h
    simp [concatenate_audio_segments, torchCat] at h

/-- Claim C8 (amended): `concatenate_audio_segments` applied to the empty list
raises (models as `none`) rather than returning an empty buffer, and applied to
a single-element list `[s]` returns exactly `s.audio`. -/
theorem concatenate_nil_and_singleton :
    concatenate_audio_segments [] = none
    ∧ ∀ s : Segment, concatenate_audio_segments [s] = some s.audio := by
  constructor
  · rfl
  · intro s
    simp [concatenate_audio_segments, torchCat]

/-- Claim C9 counterexample: for two one-sample segments sharing the sample
rate 48000 and `pause_ms = 500`, the claimed output length
`|a₁| + |a₂| + floor(500·48000/1000)` is `24002`, but the code produces
`12002` samples — the silence is computed from the hardcoded constant 24000,
not from the segments' shared sample rate. -/
theorem concatenate_with_pauses_rate_counterexample :
    (Segment.mk [] 0 [0] 48000).sampleRate = 48000
    ∧ (Segment.mk [] 1 [1] 48000).sampleRate = 48000
    ∧ (concatenate_with_pauses [Segment.mk [] 0 [0] 48000, Segment.mk [] 1 [1] 48000] 500).length
        = 12002
    ∧ (concatenate_with_pauses [Segment.mk [] 0 [0] 48000, Segment.mk [] 1 [1] 48000] 500).length
        ≠ 1 + 1 + 500 * 48000 / 1000 := by
  have h12 : (concatenate_with_pauses [Segment.mk [] 0 [0] 48000, Segment.mk [] 1 [1] 48000]
      500).length = 12002 := by
    simp only [concatenate_with_pauses, foldl_pause_length, add_silence, List.length_replicate,
      List.map_cons, List.map_nil, List.sum_cons, List.sum_nil]
    norm_num
  refine ⟨rfl, rfl, h12, ?_⟩
  rw [h12]
  norm_num

/-- Claim C9 (amended): `concatenate_with_pauses` on the empty list returns an
empty buffer, and on any non-empty list of `n` segments returns a buffer whose
length is the sum of the segment lengths plus `(n-1)` silence buffers of
`floor(pause_ms · 24000 / 1000)` samples each — 24000 being the hardcoded CSM
default rate, used regardless of the segments' own sample rates; silence is
inserted only between adjacent segments, never before the first or after the
last. -/
theorem concatenate_with_pauses_length (segments : List Segment) (pause_ms : Nat)
    (hne : segments ≠ []) :
    concatenate_with_pauses [] pause_ms = []
    ∧ (concatenate_with_pauses segments pause_ms).length
        = (segments.map (fun s => s.audio.length)).sum
          + (segments.length - 1) * (pause_ms * 24000 / 1000) := by
  refine ⟨rfl, ?_⟩
  match segments with
  | [] => exact absurd rfl hne
  | first :: rest =>
    simp only [concatenate_with_pauses, foldl_pause_length, add_silence,
      List.length_replicate, sum_map_const_add, List.map_cons, List.sum_cons,
      List.length_cons, Nat.add_sub_cancel]
    ring

/-- Witness for `concatenate_with_pauses_length` at a concrete non-empty input. -/
theorem concatenate_with_pauses_length_witness :
    ([Segment.mk [] 0 [0, 0] 24000, Segment.mk [] 1 [0] 24000] : List Segment) ≠ []
    ∧ (concatenate_with_pauses [] 500 = []
       ∧ (concatenate_with_pauses
            [Segment.mk [] 0 [0, 0] 24000, Segment.mk [] 1 [0] 24000] 500).length
          = ((([Segment.mk [] 0 [0, 0] 24000, Segment.mk [] 1 [0] 24000] : List Segment)).map
              (fun s => s.audio.length)).sum
            + (([Segment.mk [] 0 [0, 0] 24000, Segment.mk [] 1 [0] 24000] : List Segment).length
                - 1) * (500 * 24000 / 1000)) :=
  ⟨by simp, concatenate_with_pauses_length _ 500 (by simp)⟩

/-- Claim C2: in every generation call of the three applications, for any
history length, the context handed to the generation boundary has the active
speaker's reference segment at index 0, followed by the (windowed) history
segments oldest-first — the window is a suffix of the chronological history,
so no reordering — followed by the explicitly supplied extra segments in the
order given. -/
theorem context_reference_first (p : Segment) (hist extra acc : List Segment) (uh : Bool) :
    (characterFullContext p hist extra uh).head? = some p
    ∧ characterFullContext p hist extra true = p :: (hist ++ extra)
    ∧ (voiceFullContext p hist extra).head? = some p
    ∧ voiceFullContext p hist extra = p :: (hist.drop (hist.length - 3) ++ extra)
    ∧ hist.drop (hist.length - 3) <:+ hist
    ∧ (storyChunkContext [p] acc).head? = some p
    ∧ storyChunkContext [p] acc = p :: acc.drop (acc.length - 2)
    ∧ acc.drop (acc.length - 2) <:+ acc := by
  refine ⟨?_, ?_, ?_, ?_, List.drop_suffix _ _, ?_, ?_, List.drop_suffix _ _⟩
  · simp [characterFullContext]
  · simp [characterFullContext]
  · cases hist <;> simp [voiceFullContext]
  · cases hist <;> simp [voiceFullContext]
  · simp [storyChunkContext]
  · simp [storyChunkContext]

/-- Claim C1 (amended): the context passed to the generation boundary contains
at most `1 + historyLimit + |extraSegments|` entries for
`VoiceGame.character_speak` (`historyLimit = 3`) and for the story-generator
chunk loop (`historyLimit = 2`, no extra segments); `Character.respond`
however imposes no history limit: with `use_history=True` its context contains
exactly `1 + |conversation_history| + |extraSegments|` entries, unbounded in
the number of units generated so far. -/
theorem context_size_bounds (p : Segment) (hist extra acc : List Segment) :
    (voiceFullContext p hist extra).length ≤ 1 + 3 + extra.length
    ∧ (storyChunkContext [p] acc).length ≤ 1 + 2
    ∧ (characterFullContext p hist extra true).length
        = 1 + hist.length + extra.length := by
  refine ⟨?_, ?_, ?_⟩
  · cases hist <;> simp [voiceFullContext] <;> omega
  · simp [storyChunkContext]
    omega
  · simp [characterFullContext]
    omega

/-- Claim C1 counterexample: after 10 successful `Character.respond` calls the
conversation history has 10 entries, and the context the next `respond` call
passes to the generation boundary has 11 entries — more than
`1 + historyLimit + |extraSegments|` for the spec's history limit of 3 (or any
other fixed small bound): `Character.respond` has no history limit. -/
theorem character_context_bound_counterexample :
    (respondTimes 10 demoCharacter).conversation_history.length = 10
    ∧ ¬ ((characterFullContext demoPrompt
            (respondTimes 10 demoCharacter).conversation_history [] true).length
          ≤ 1 + 3 + 0) := by
  constructor
  · rfl
  · intro h
    simp [characterFullContext] at h
    revert h
    decide

/-- Claim C4: with no generation boundary bound (`self.generator is None`,
the `Uninitialized` state), every generation request of the three applications
fails with the not-initialized `RuntimeError` and leaves the state unchanged,
never invoking generation. -/
theorem uninitialized_rejected (stc : CharacterState) (stv : VoiceGameState)
    (sts : StoryGeneratorState) (text : List Char) (extra : List Segment) (uh : Bool)
    (cid : Nat) (method : String) (mcl : Nat)
    (hc : stc.generator = none) (hv : stv.generator = none) (hs : sts.generator = none) :
    Character.respond stc text extra uh = (.error .notInitialized, stc)
    ∧ VoiceGame.character_speak stv cid text extra = (.error .notInitialized, stv)
    ∧ StoryGenerator.generate_story_audio sts text method mcl = .error .notInitialized := by
  refine ⟨?_, ?_, ?_⟩
  · cases hp : stc.prompt <;> simp [Character.respond, hc, hp]
  · simp [VoiceGame.character_speak, hv]
  · cases hp : sts.narrator_prompt <;>
      simp [StoryGenerator.generate_story_audio, hs, hp]

/-- Witness for `uninitialized_rejected` at concrete uninitialized states. -/
theorem uninitialized_rejected_witness :
    (CharacterState.mk 0 none none 0 []).generator = none
    ∧ (VoiceGameState.mk none [] 0 []).generator = none
    ∧ (StoryGeneratorState.mk none none 0).generator = none
    ∧ (Character.respond (CharacterState.mk 0 none none 0 []) [] [] true
         = (.error .notInitialized, CharacterState.mk 0 none none 0 [])
       ∧ VoiceGame.character_speak (VoiceGameState.mk none [] 0 []) 0 [] []
         = (.error .notInitialized, VoiceGameState.mk none [] 0 [])
       ∧ StoryGenerator.generate_story_audio (StoryGeneratorState.mk none none 0) []
           "paragraph" 0
         = .error .notInitialized) :=
  ⟨rfl, rfl, rfl,
   uninitialized_rejected (CharacterState.mk 0 none none 0 [])
     (VoiceGameState.mk none [] 0 []) (StoryGeneratorState.mk none none 0)
     [] [] true 0 "paragraph" 0 rfl rfl rfl⟩

/-- Claim C3: every failing generation call propagates its error unchanged to
the caller with no retry and leaves the session history unmodified: an
unregistered speaker id raises the `ValueError` before generation, a
generation-boundary failure is surfaced as-is (same payload), and in both
cases the returned state — including its history — is exactly the input
state, since the history append only happens after a successful generation;
likewise the story chunk loop aborts on the first failing chunk, propagating
the boundary's error. -/
theorem failure_propagates_history_unchanged
    (stc : CharacterState) (stv : VoiceGameState)
    (text : List Char) (extra : List Segment) (uh : Bool) (cid : Nat)
    (g gc gs : GenFn) (p narrator : Segment) (ch : VGCharacter) (e e' e'' : String)
    (sr mcl : Nat) (chunk : List Char) (rest : List (List Char)) (acc : List Segment) :
    (stv.generator = some g → stv.characters.lookup cid = none →
       VoiceGame.character_speak stv cid text extra
         = (.error (.unknownSpeaker cid), stv))
    ∧ (stv.generator = some g → stv.characters.lookup cid = some ch →
       g text cid (voiceFullContext ch.prompt stv.dialogue_history extra) 10000
           = .error e →
       VoiceGame.character_speak stv cid text extra
         = (.error (.generationFailure e), stv))
    ∧ (stc.generator = some gc → stc.prompt = some p →
       gc text stc.speaker_id
           (characterFullContext p stc.conversation_history extra uh) 10000
           = .error e' →
       Character.respond stc text extra uh = (.error (.generationFailure e'), stc))
    ∧ (gs chunk 0 (storyChunkContext [narrator] acc) mcl = .error e'' →
       storyLoop gs narrator sr mcl (chunk :: rest) acc
         = .error (.generationFailure e'')) := by
  refine ⟨?_, ?_, ?_, ?_⟩
  · intro hg hl
    simp [VoiceGame.character_speak, hg, hl]
  · intro hg hl hfail
    simp [VoiceGame.character_speak, hg, hl, hfail]
  · intro hg hp hfail
    simp [Character.respond, hg, hp, hfail]
  · intro hfail
    simp [storyLoop, hfail]

/-- Witness for `failure_propagates_history_unchanged`: speaker id 99 was
never registered, so `character_speak` raises and the history length is
unchanged (still 0); a failing boundary propagates its message unchanged. -/
theorem failure_propagates_history_unchanged_witness :
    demoVoiceGame.characters.lookup 99 = none
    ∧ demoVoiceGame.characters.lookup 0 = some (VGCharacter.mk ['n'] demoPrompt)
    ∧ (VoiceGame.character_speak demoVoiceGame 99 [] []
         = (.error (.unknownSpeaker 99), demoVoiceGame)
       ∧ VoiceGame.character_speak demoVoiceGame 0 [] []
         = (.error (.generationFailure "model failure"), demoVoiceGame)
       ∧ Character.respond demoFailCharacter [] [] true
         = (.error (.generationFailure "model failure"), demoFailCharacter)
       ∧ storyLoop failGen demoPrompt 24000 10000 [['a']] []
         = .error (.generationFailure "model failure")) :=
  ⟨rfl, rfl,
   (failure_propagates_history_unchanged demoFailCharacter demoVoiceGame
      [] [] true 99 failGen failGen failGen demoPrompt demoPrompt
      (VGCharacter.mk ['n'] demoPrompt) "model failure" "model failure" "model failure"
      24000 10000 ['a'] [] []).1 rfl rfl,
   (failure_propagates_history_unchanged demoFailCharacter demoVoiceGame
      [] [] true 0 failGen failGen failGen demoPrompt demoPrompt
      (VGCharacter.mk ['n'] demoPrompt) "model failure" "model failure" "model failure"
      24000 10000 ['a'] [] []).2.1 rfl rfl rfl,
   (failure_propagates_history_unchanged demoFailCharacter demoVoiceGame
      [] [] true 0 failGen failGen failGen demoPrompt demoPrompt
      (VGCharacter.mk ['n'] demoPrompt) "model failure" "model failure" "model failure"
      24000 10000 ['a'] [] []).2.2.1 rfl rfl rfl,
   (failure_propagates_history_unchanged demoFailCharacter demoVoiceGame
      [] [] true 0 failGen failGen failGen demoPrompt demoPrompt
      (VGCharacter.mk ['n'] demoPrompt) "model failure" "model failure" "model failure"
      24000 10000 ['a'] [] []).2.2.2 rfl⟩

/-- Claim C6: the sentence policy splits on runs of terminal punctuation,
trims each fragment, appends a period (every surviving fragment lacks terminal
punctuation, since the split consumed it) and drops empty fragments; in
particular `split("One. Two! Three?", policy="sentence")` returns
`["One.", "Two.", "Three."]`, and in general every returned unit is non-empty
and ends in a period. -/
theorem sentence_policy_normalizes (text c : List Char)
    (hc : c ∈ split_story text "sentence") :
    split_story ("One. Two! Three?".toList) "sentence"
      = ["One.".toList, "Two.".toList, "Three.".toList]
    ∧ c ≠ [] ∧ c.getLast? = some '.' := by
  refine ⟨by decide, ?_, ?_⟩ <;>
  · have hc' : c ∈ ((splitSents text).filter (fun s => ¬(strip s).isEmpty)).map
        (fun s => strip s ++ ['.']) := by
      simpa [split_story] using hc
    rw [List.mem_map] at hc'
    obtain ⟨s, _, rfl⟩ := hc'
    simp

/-- Witness for `sentence_policy_normalizes` at the scenario input and its
first returned unit. -/
theorem sentence_policy_normalizes_witness :
    ("One.".toList ∈ split_story ("One. Two! Three?".toList) "sentence")
    ∧ (split_story ("One. Two! Three?".toList) "sentence"
         = ["One.".toList, "Two.".toList, "Three.".toList]
       ∧ "One.".toList ≠ [] ∧ ("One.".toList).getLast? = some '.') :=
  ⟨by decide, sentence_policy_normalizes ("One. Two! Three?".toList) ("One.".toList)
      (by decide)⟩

/-- Claim C7: any policy name other than `paragraph`, `sentence` and `length`
silently falls back to the whole policy: the entire input text is returned as
a single one-element list, with no error raised. -/
theorem unknown_policy_falls_back_to_whole (text : List Char) (method : String)
    (h1 : method ≠ "paragraph") (h2 : method ≠ "sentence") (h3 : method ≠ "length") :
    split_story text method = [text] := by
  simp [split_story, h1, h2, h3]

/-- Witness for `unknown_policy_falls_back_to_whole` at a concrete
unrecognized policy name. -/
theorem unknown_policy_falls_back_to_whole_witness :
    (("bogus" : String) ≠ "paragraph" ∧ ("bogus" : String) ≠ "sentence"
      ∧ ("bogus" : String) ≠ "length")
    ∧ split_story ['a', 'b'] "bogus" = [['a', 'b']] :=
  ⟨⟨by decide, by decide, by decide⟩,
   unknown_policy_falls_back_to_whole ['a', 'b'] "bogus" (by decide) (by decide) (by decide)⟩

/-- Claim C10: `get_conversation_history` returns a copy: the returned list
object is a fresh cell with the same contents, and after an arbitrary
mutation of that cell the character's internal history cell — and therefore
the context a subsequent `respond` call would assemble from it — is
unchanged. -/
theorem get_conversation_history_returns_copy (h : Heap) (c : CharacterRef)
    (v extra : List Segment) (uh : Bool) (hr : c.histRef < h.length) :
    ((get_conversation_history h c).1.getD (get_conversation_history h c).2 []
       = h.getD c.histRef [])
    ∧ (heapWrite (get_conversation_history h c).1 (get_conversation_history h c).2 v).getD
        c.histRef [] = h.getD c.histRef []
    ∧ characterFullContext c.prompt
        ((heapWrite (get_conversation_history h c).1
            (get_conversation_history h c).2 v).getD c.histRef []) extra uh
      = characterFullContext c.prompt (h.getD c.histRef []) extra uh := by
  have h1 : (get_conversation_history h c).1.getD (get_conversation_history h c).2 []
      = h.getD c.histRef [] := by
    simp [get_conversation_history, pyListCopy, List.getD_eq_getElem?_getD,
      List.getElem?_concat_length]
  have h2 : (heapWrite (get_conversation_history h c).1
      (get_conversation_history h c).2 v).getD c.histRef [] = h.getD c.histRef [] := by
    simp only [get_conversation_history, pyListCopy, heapWrite,
      List.getD_eq_getElem?_getD, List.getElem?_set]
    rw [if_neg (by omega), List.getElem?_append_left hr]
  exact ⟨h1, h2, by rw [h2]⟩

/-- Witness for `get_conversation_history_returns_copy` at a one-cell heap. -/
theorem get_conversation_history_returns_copy_witness :
    ((CharacterRef.mk demoPrompt 0).histRef < ([[demoPrompt]] : Heap).length)
    ∧ (((get_conversation_history [[demoPrompt]] (CharacterRef.mk demoPrompt 0)).1.getD
          (get_conversation_history [[demoPrompt]] (CharacterRef.mk demoPrompt 0)).2 []
          = ([[demoPrompt]] : Heap).getD 0 [])
       ∧ (heapWrite (get_conversation_history [[demoPrompt]] (CharacterRef.mk demoPrompt 0)).1
            (get_conversation_history [[demoPrompt]] (CharacterRef.mk demoPrompt 0)).2 []).getD
            0 [] = ([[demoPrompt]] : Heap).getD 0 []
       ∧ characterFullContext demoPrompt
            ((heapWrite (get_conversation_history [[demoPrompt]]
                (CharacterRef.mk demoPrompt 0)).1
              (get_conversation_history [[demoPrompt]] (CharacterRef.mk demoPrompt 0)).2
              []).getD 0 []) [] true
          = characterFullContext demoPrompt (([[demoPrompt]] : Heap).getD 0 []) [] true) :=
  ⟨by decide,
   get_conversation_history_returns_copy [[demoPrompt]] (CharacterRef.mk demoPrompt 0)
     [] [] true (by decide)⟩

theorem substrOf_refl (u : List Char) : SubstrOf u u :=
  ⟨[], [], by simp⟩

theorem substrOf_nil (v : List Char) : SubstrOf [] v :=
  ⟨[], v, by simp⟩

theorem substrOf_trans {u v w : List Char} (h1 : SubstrOf u v) (h2 : SubstrOf v w) :
    SubstrOf u w := by
  obtain ⟨p1, s1, rfl⟩ := h1
  obtain ⟨p2, s2, rfl⟩ := h2
  exact ⟨p2 ++ p1, s1 ++ s2, by simp⟩

theorem substrOf_cons {u v : List Char} (c : Char) (h : SubstrOf u v) :
    SubstrOf u (c :: v) := by
  obtain ⟨p, s, rfl⟩ := h
  exact ⟨c :: p, s, by simp⟩

theorem substrOf_append_left {u v : List Char} (w : List Char) (h : SubstrOf u v) :
    SubstrOf u (w ++ v) := by
  obtain ⟨p, s, rfl⟩ := h
  exact ⟨w ++ p, s, by simp⟩

theorem substrOf_of_eq_append {u v r : List Char} (h : v = u ++ r) : SubstrOf u v :=
  ⟨[], r, by simp [h]⟩

theorem substrOf_length {u v : List Char} (h : SubstrOf u v) : u.length ≤ v.length := by
  obtain ⟨p, s, rfl⟩ := h
  simp
  omega

/-- `strip s` occurs contiguously inside `s`. -/
theorem strip_substrOf (s : List Char) : SubstrOf (strip s) s := by
  have key : s.dropWhile isWs
      = strip s ++ ((s.dropWhile isWs).reverse.takeWhile isWs).reverse := by
    have h2 := List.takeWhile_append_dropWhile (p := isWs)
      (l := (s.dropWhile isWs).reverse)
    have h3 := congrArg List.reverse h2
    rw [List.reverse_append, List.reverse_reverse] at h3
    exact h3.symm
  refine ⟨s.takeWhile isWs, ((s.dropWhile isWs).reverse.takeWhile isWs).reverse, ?_⟩
  rw [List.append_assoc, ← key, List.takeWhile_append_dropWhile]

theorem words_cons_ws {c : Char} (s : List Char) (h : isWs c = true) :
    words (c :: s) = words s := by
  simp [words, h]

theorem words_singleton {c : Char} (h : isWs c = false) : words [c] = [[c]] := by
  simp [words, h]

theorem words_cons_cons_ws {c d : Char} (s : List Char) (hc : isWs c = false)
    (hd : isWs d = true) : words (c :: d :: s) = [c] :: words (d :: s) := by
  simp [words, hc, hd]

theorem words_ne_nil (s : List Char) {d : Char} (hd : isWs d = false) :
    words (d :: s) ≠ [] := by
  rw [words.eq_def]
  simp only [hd, Bool.false_eq_true, if_false]
  cases s with
  | nil => simp
  | cons d' s' =>
    cases h' : isWs d'
    · simp only [h', Bool.false_eq_true, if_false]
      cases words (d' :: s') <;> simp
    · simp [h']

theorem words_cons_cons_nonws {c d : Char} (s : List Char) (hc : isWs c = false)
    (hd : isWs d = false) :
    ∃ w ws, words (d :: s) = w :: ws ∧ words (c :: d :: s) = (c :: w) :: ws := by
  obtain ⟨w, ws, hws⟩ : ∃ w ws, words (d :: s) = w :: ws := by
    cases hW : words (d :: s) with
    | nil => exact absurd hW (words_ne_nil s hd)
    | cons w ws => exact ⟨w, ws, rfl⟩
  refine ⟨w, ws, hws, ?_⟩
  conv_lhs => rw [words.eq_def]
  simp only [hc, hd, Bool.false_eq_true, if_false, hws]

/-- Every word returned by `words` is non-empty and whitespace-free. -/
theorem words_sound : ∀ (s : List Char) (w : List Char), w ∈ words s →
    w ≠ [] ∧ ∀ c ∈ w, isWs c = false := by
  intro s
  induction s with
  | nil => simp [words]
  | cons c s ih =>
    intro w hw
    cases hc : isWs c with
    | true =>
      rw [words_cons_ws s hc] at hw
      exact ih w hw
    | false =>
      cases s with
      | nil =>
        rw [words_singleton hc] at hw
        simp at hw
        subst hw
        simp [hc]
      | cons d s' =>
        cases hd : isWs d with
        | true =>
          rw [words_cons_cons_ws s' hc hd] at hw
          rcases List.mem_cons.mp hw with rfl | hw'
          · simp [hc]
          · exact ih w hw'
        | false =>
          obtain ⟨w0, ws0, hW, hW'⟩ := words_cons_cons_nonws s' hc hd
          rw [hW'] at hw
          rcases List.mem_cons.mp hw with rfl | hw'
          · have h0 := ih w0 (by rw [hW]; exact List.mem_cons_self _ _)
            refine ⟨by simp, ?_⟩
            intro x hx
            rcases List.mem_cons.mp hx with rfl | hx'
            · exact hc
            · exact h0.2 x hx'
          · exact ih w (by rw [hW]; exact List.mem_cons_of_mem _ hw')

theorem joinSp_cons_ne (g : List Char) {gs : List (List Char)} (h : gs ≠ []) :
    joinSp (g :: gs) = g ++ ' ' :: joinSp gs := by
  cases gs with
  | nil => exact absurd rfl h
  | cons g' gs' => rfl

theorem joinSp_ne_nil {g : List Char} (gs : List (List Char)) (hg : g ≠ []) :
    joinSp (g :: gs) ≠ [] := by
  cases gs with
  | nil => simpa [joinSp] using hg
  | cons g' gs' => simp [joinSp]

theorem joinSp_cons_head (c : Char) (w : List Char) (t : List (List Char)) :
    joinSp ((c :: w) :: t) = c :: joinSp (w :: t) := by
  cases t with
  | nil => rfl
  | cons g' t' => simp [joinSp]

/-- A non-whitespace first character survives normalization as the first
character. -/
theorem normalizeWs_cons_head {c : Char} (s : List Char) (hc : isWs c = false) :
    ∃ r, normalizeWs (c :: s) = c :: r := by
  cases s with
  | nil => exact ⟨[], by simp [normalizeWs, words_singleton hc, joinSp]⟩
  | cons d s' =>
    cases hd : isWs d
    · obtain ⟨w, ws, hW, hW'⟩ := words_cons_cons_nonws s' hc hd
      exact ⟨joinSp (w :: ws), by rw [normalizeWs, hW', joinSp_cons_head]⟩
    · rw [normalizeWs, words_cons_cons_ws s' hc hd]
      cases hW : words (d :: s') with
      | nil => exact ⟨[], by simp [joinSp]⟩
      | cons w ws =>
        exact ⟨' ' :: joinSp (w :: ws), by rw [joinSp_cons_ne _ (by simp)]; simp⟩

/-- Prepending one character extends the normalized form only on the left. -/
theorem normalizeWs_cons_suffix (c : Char) (v : List Char) :
    ∃ r, normalizeWs (c :: v) = r ++ normalizeWs v := by
  cases hc : isWs c with
  | true => exact ⟨[], by rw [normalizeWs, normalizeWs, words_cons_ws v hc]; simp⟩
  | false =>
    cases v with
    | nil => exact ⟨[c], by simp [normalizeWs, words_singleton hc, words, joinSp, hc]⟩
    | cons d v' =>
      cases hd : isWs d
      · obtain ⟨w, ws, hW, hW'⟩ := words_cons_cons_nonws v' hc hd
        refine ⟨[c], ?_⟩
        rw [normalizeWs, normalizeWs, hW', hW, joinSp_cons_head]
        rfl
      · rw [normalizeWs, normalizeWs, words_cons_cons_ws v' hc hd]
        cases hW : words (d :: v') with
        | nil => exact ⟨[c], by simp [joinSp]⟩
        | cons w ws =>
          exact ⟨[c, ' '], by rw [joinSp_cons_ne _ (by simp)]; simp⟩

/-- Prepending any text extends the normalized form only on the left. -/
theorem normalizeWs_append_suffix (t u : List Char) :
    ∃ r, normalizeWs (t ++ u) = r ++ normalizeWs u := by
  induction t with
  | nil => exact ⟨[], by simp⟩
  | cons c t ih =>
    obtain ⟨r1, h1⟩ := normalizeWs_cons_suffix c (t ++ u)
    obtain ⟨r2, h2⟩ := ih
    exact ⟨r1 ++ r2, by rw [List.cons_append, h1, h2, List.append_assoc]⟩

/-- Appending any text extends the normalized form only on the right. -/
theorem normalizeWs_append_of_ne (u t : List Char) :
    ∃ r, normalizeWs (u ++ t) = normalizeWs u ++ r := by
  induction u with
  | nil => exact ⟨normalizeWs t, by simp [normalizeWs, words, joinSp]⟩
  | cons c u' ih =>
    cases hc : isWs c with
    | true =>
      obtain ⟨r, hr⟩ := ih
      refine ⟨r, ?_⟩
      rw [List.cons_append, normalizeWs, words_cons_ws _ hc, normalizeWs,
        words_cons_ws _ hc, ← normalizeWs, ← normalizeWs, hr]
    | false =>
      cases u' with
      | nil =>
        obtain ⟨r, hr⟩ := normalizeWs_cons_head t hc
        refine ⟨r, ?_⟩
        rw [show ([c] ++ t) = c :: t from rfl, hr, normalizeWs, words_singleton hc]
        rfl
      | cons d u'' =>
        obtain ⟨r', hr'⟩ := ih
        cases hd : isWs d with
        | false =>
          obtain ⟨w1, ws1, hW1, hW1'⟩ := words_cons_cons_nonws u'' hc hd
          obtain ⟨w2, ws2, hW2, hW2'⟩ := words_cons_cons_nonws (u'' ++ t) hc hd
          refine ⟨r', ?_⟩
          simp only [normalizeWs, List.cons_append] at hr' ⊢
          rw [hW2', hW1', joinSp_cons_head, joinSp_cons_head, ← hW1, ← hW2, hr']
          simp
        | true =>
          have hWc1 : words (c :: d :: u'') = [c] :: words (d :: u'') :=
            words_cons_cons_ws u'' hc hd
          have hWc2 : words (c :: d :: (u'' ++ t)) = [c] :: words (d :: (u'' ++ t)) :=
            words_cons_cons_ws (u'' ++ t) hc hd
          rw [List.cons_append, List.cons_append, normalizeWs, hWc2, normalizeWs, hWc1]
          cases hW1 : words (d :: u'') with
          | nil =>
            cases hW2 : words (d :: (u'' ++ t)) with
            | nil => exact ⟨[], by simp [joinSp]⟩
            | cons w2 ws2 =>
              exact ⟨' ' :: joinSp (w2 :: ws2), by rw [joinSp_cons_ne _ (by simp)]; rfl⟩
          | cons w1 ws1 =>
            have hw1ne : w1 ≠ [] :=
              (words_sound (d :: u'') w1 (by rw [hW1]; exact List.mem_cons_self _ _)).1
            have hj1ne : joinSp (w1 :: ws1) ≠ [] := joinSp_ne_nil ws1 hw1ne
            have hr'' : joinSp (words (d :: (u'' ++ t)))
                = joinSp (w1 :: ws1) ++ r' := by
              have := hr'
              rw [normalizeWs, normalizeWs, List.cons_append, hW1] at this
              exact this
            cases hW2 : words (d :: (u'' ++ t)) with
            | nil =>
              rw [hW2] at hr''
              exact absurd hr''.symm (by simp [joinSp, hj1ne])
            | cons w2 ws2 =>
              refine ⟨r', ?_⟩
              rw [joinSp_cons_ne [c] (by simp : (w2 :: ws2 : List (List Char)) ≠ []),
                joinSp_cons_ne [c] (by simp : (w1 :: ws1 : List (List Char)) ≠ [])]
              rw [hW2] at hr''
              rw [hr'']
              simp

/-- Whitespace normalization preserves contiguous-substring containment. -/
theorem normalizeWs_substrOf {u v : List Char} (h : SubstrOf u v) :
    SubstrOf (normalizeWs u) (normalizeWs v) := by
  obtain ⟨p, s, rfl⟩ := h
  obtain ⟨r1, h1⟩ := normalizeWs_append_suffix p (u ++ s)
  obtain ⟨r2, h2⟩ := normalizeWs_append_of_ne u s
  exact ⟨r1, r2, by rw [List.append_assoc, h1, h2, List.append_assoc]⟩

/-- Every piece produced by the paragraph splitter occurs contiguously in the
input (relative to the pending accumulator). -/
theorem splitParas_substrOf : ∀ (s acc p : List Char),
    p ∈ splitParas s acc → SubstrOf p (acc.reverse ++ s) := by
  intro s acc p hp
  induction s, acc using splitParas.induct generalizing p with
  | case1 t acc ih =>
    rw [splitParas] at hp
    rcases List.mem_cons.mp hp with rfl | hp'
    · exact ⟨[], '\n' :: '\n' :: t, by simp⟩
    · have h1 := ih p (by simpa using hp')
      simp only [List.reverse_nil, List.nil_append] at h1
      refine substrOf_trans h1 ⟨acc.reverse ++ ['\n', '\n'], [], by simp⟩
  | case2 c t acc hne ih =>
    rw [splitParas.eq_def] at hp
    split at hp
    · rename_i t' heq
      injection heq with h1 h2
      exact (hne t' h1 h2).elim
    · rename_i c' t' hx heq
      injection heq with h1 h2
      subst h1
      subst h2
      have h1 := ih p hp
      simpa [List.append_assoc] using h1
    · rename_i heq
      simp at heq
  | case3 acc =>
    rw [splitParas] at hp
    simp at hp
    subst hp
    exact ⟨[], [], by simp⟩

/-- Every fragment produced by the sentence splitter occurs contiguously in
the input (relative to the pending state). -/
theorem splitSentsAux_substrOf : ∀ (s : List Char) (st : Option (List Char))
    (p : List Char), p ∈ splitSentsAux s st →
    SubstrOf p ((st.elim [] List.reverse) ++ s) := by
  intro s
  induction s with
  | nil =>
    intro st p hp
    match st with
    | some acc =>
      simp only [splitSentsAux, List.mem_singleton] at hp
      subst hp
      exact ⟨[], [], by simp⟩
    | none =>
      simp only [splitSentsAux, List.mem_singleton] at hp
      subst hp
      exact substrOf_nil _
  | cons c t ih =>
    intro st p hp
    match st with
    | some acc =>
      rw [splitSentsAux] at hp
      by_cases hterm : isTerminal c = true
      · rw [if_pos hterm] at hp
        rcases List.mem_cons.mp hp with rfl | hp'
        · exact ⟨[], c :: t, by simp⟩
        · have h1 := ih none p hp'
          simp only [Option.elim, List.nil_append] at h1
          exact substrOf_trans h1 ⟨acc.reverse ++ [c], [], by simp⟩
      · rw [if_neg hterm] at hp
        have h1 := ih (some (c :: acc)) p hp
        simpa [List.append_assoc] using h1
    | none =>
      rw [splitSentsAux] at hp
      by_cases hterm : isTerminal c = true
      · rw [if_pos hterm] at hp
        exact substrOf_cons c (by simpa using ih none p hp)
      · rw [if_neg hterm] at hp
        have h1 := ih (some [c]) p hp
        simpa using h1

/-- The groups produced by the greedy packer flatten back to the input
word list (prefixed by the pending chunk). -/
theorem packWords_flatten : ∀ (ws : List (List Char)) (cur : List (List Char)) (len : Nat),
    (packWords ws cur len).flatten = cur ++ ws := by
  intro ws
  induction ws with
  | nil =>
    intro cur len
    by_cases h : cur.isEmpty
    · simp [packWords, h, List.isEmpty_iff.mp h]
    · simp [packWords, h]
  | cons w ws ih =>
    intro cur len
    rw [packWords]
    by_cases h : len + w.length > 200 ∧ ¬cur.isEmpty
    · rw [if_pos h]
      simp [ih]
    · rw [if_neg h]
      simp [ih]

/-- Every group produced by the greedy packer is non-empty. -/
theorem packWords_mem_ne_nil : ∀ (ws : List (List Char)) (cur : List (List Char))
    (len : Nat) (g : List (List Char)), g ∈ packWords ws cur len → g ≠ [] := by
  intro ws
  induction ws with
  | nil =>
    intro cur len g hg
    rw [packWords] at hg
    by_cases h : cur.isEmpty = true
    · rw [if_pos h] at hg
      simp at hg
    · rw [if_neg h] at hg
      simp only [List.mem_singleton] at hg
      subst hg
      simpa [List.isEmpty_iff] using h
  | cons w ws ih =>
    intro cur len g hg
    rw [packWords] at hg
    by_cases h : len + w.length > 200 ∧ ¬cur.isEmpty
    · rw [if_pos h] at hg
      rcases List.mem_cons.mp hg with rfl | hg'
      · simpa [List.isEmpty_iff] using h.2
      · exact ih _ _ g hg'
    · rw [if_neg h] at hg
      exact ih _ _ g hg

/-- `joinSp` of a non-empty head list is extended only on the right by
appending further groups. -/
theorem joinSp_append_of_ne : ∀ (g s : List (List Char)), g ≠ [] →
    ∃ r, joinSp (g ++ s) = joinSp g ++ r := by
  intro g
  induction g with
  | nil => intro s h; exact absurd rfl h
  | cons w g' ih =>
    intro s _
    cases g' with
    | nil =>
      cases s with
      | nil => exact ⟨[], by simp⟩
      | cons s0 s' =>
        exact ⟨' ' :: joinSp (s0 :: s'), by
          rw [List.cons_append, List.nil_append, joinSp_cons_ne _ (by simp)]; rfl⟩
    | cons g0 g'' =>
      obtain ⟨r, hr⟩ := ih s (by simp)
      refine ⟨r, ?_⟩
      rw [List.cons_append, joinSp_cons_ne _ (by simp),
        joinSp_cons_ne _ (by simp : (g0 :: g'' : List (List Char)) ≠ []), hr]
      simp

/-- `joinSp` of a contiguous slice of groups occurs contiguously in `joinSp`
of the whole group list. -/
theorem joinSp_slice_substrOf : ∀ (pfx g sfx : List (List Char)),
    SubstrOf (joinSp g) (joinSp (pfx ++ g ++ sfx)) := by
  intro pfx
  induction pfx with
  | nil =>
    intro g sfx
    cases hg : g with
    | nil => exact substrOf_nil _
    | cons g0 g' =>
      obtain ⟨r, hr⟩ := joinSp_append_of_ne (g0 :: g') sfx (by simp)
      rw [List.nil_append]
      exact substrOf_of_eq_append hr
  | cons w pfx' ih =>
    intro g sfx
    cases hrest : pfx' ++ g ++ sfx with
    | nil =>
      have : g = [] := by
        rcases List.append_eq_nil.mp hrest with ⟨h1, _⟩
        exact (List.append_eq_nil.mp h1).2
      rw [this]
      exact substrOf_nil _
    | cons r0 rs =>
      have h1 := ih g sfx
      have hjoin : joinSp ((w :: pfx') ++ g ++ sfx)
          = w ++ ' ' :: joinSp (pfx' ++ g ++ sfx) := by
        have hs : (w :: pfx') ++ g ++ sfx = w :: (pfx' ++ g ++ sfx) := by simp
        rw [hs, joinSp_cons_ne w (by rw [hrest]; simp)]
      rw [hjoin]
      exact substrOf_append_left w (substrOf_cons ' ' h1)

/-- `words` recovers the groups from a space-join of non-empty
whitespace-free words. -/
theorem words_join_single : ∀ (g : List Char), g ≠ [] → (∀ c ∈ g, isWs c = false) →
    words g = [g] := by
  intro g
  induction g with
  | nil => intro h; exact absurd rfl h
  | cons c g' ih =>
    intro _ hchars
    have hc : isWs c = false := hchars c (by simp)
    cases g' with
    | nil => exact words_singleton hc
    | cons d g'' =>
      have hd : isWs d = false := hchars d (by simp)
      obtain ⟨w, ws, hW, hW'⟩ := words_cons_cons_nonws g'' hc hd
      have h1 : words (d :: g'') = [d :: g''] := by
        refine ih (by simp) ?_
        intro x hx
        exact hchars x (List.mem_cons_of_mem c hx)
      rw [h1] at hW
      injection hW with hw hws
      rw [hW', ← hw, ← hws]

theorem words_join_cons : ∀ (g r : List Char), g ≠ [] → (∀ c ∈ g, isWs c = false) →
    words (g ++ ' ' :: r) = g :: words r := by
  intro g
  induction g with
  | nil => intro r h; exact absurd rfl h
  | cons c g' ih =>
    intro r _ hchars
    have hc : isWs c = false := hchars c (by simp)
    cases g' with
    | nil =>
      rw [List.cons_append, List.nil_append,
        words_cons_cons_ws r hc (by decide), words_cons_ws r (by decide)]
    | cons d g'' =>
      have hd : isWs d = false := hchars d (by simp)
      have h1 : words ((d :: g'') ++ ' ' :: r) = (d :: g'') :: words r :=
        ih r (by simp) (fun x hx => hchars x (List.mem_cons_of_mem c hx))
      simp only [List.cons_append]
      obtain ⟨w, ws, hW, hW'⟩ := words_cons_cons_nonws (g'' ++ ' ' :: r) hc hd
      simp only [List.cons_append] at h1
      rw [h1] at hW
      injection hW with hw hws
      rw [hW', ← hw, ← hws]

/-- `words` recovers the group list from its space-join, when every group is
a non-empty whitespace-free word. -/
theorem words_joinSp : ∀ (gs : List (List Char)),
    (∀ g ∈ gs, g ≠ [] ∧ ∀ c ∈ g, isWs c = false) → words (joinSp gs) = gs := by
  intro gs
  induction gs with
  | nil => intro _; simp [joinSp, words]
  | cons g gs' ih =>
    intro hgs
    cases gs' with
    | nil =>
      have h := hgs g (by simp)
      simpa [joinSp] using words_join_single g h.1 h.2
    | cons g0 gs'' =>
      rw [joinSp_cons_ne g (by simp)]
      have h := hgs g (by simp)
      rw [words_join_cons g (joinSp (g0 :: gs'')) h.1 h.2,
        ih (fun x hx => hgs x (List.mem_cons_of_mem g hx))]

/-- Claim C5 counterexample: under the sentence policy,
`split("Hello")` returns `["Hello."]`, whose trimmed content `"Hello."` is not
a substring of the whitespace-normalized input `"Hello"` — the appended period
is not part of the input. -/
theorem split_units_substring_counterexample :
    split_story ("Hello".toList) "sentence" = ["Hello.".toList]
    ∧ strip ("Hello.".toList) = "Hello.".toList
    ∧ normalizeWs ("Hello".toList) = "Hello".toList
    ∧ ¬ SubstrOf ("Hello.".toList) (normalizeWs ("Hello".toList)) := by
  refine ⟨by decide, by decide, by decide, ?_⟩
  intro h
  have hlen := substrOf_length h
  rw [show normalizeWs ("Hello".toList) = "Hello".toList by decide] at hlen
  revert hlen
  decide

/-- Claim C5 (amended): for every non-empty input text and every chunk policy
(paragraph, sentence, length, or the whole fallback), `_split_story` returns
only non-empty units, and every returned unit's whitespace-normalized content
— with the appended terminal period first removed, in the case of the
sentence policy — is a substring of the whitespace-normalized input. -/
theorem split_story_units (text : List Char) (method : String) (c : List Char)
    (hne : text ≠ []) (hc : c ∈ split_story text method) :
    c ≠ []
    ∧ SubstrOf (normalizeWs (if method = "sentence" then c.dropLast else c))
        (normalizeWs text) := by
  by_cases hm1 : method = "paragraph"
  · subst hm1
    simp only [split_story, if_pos rfl, if_true] at hc
    rw [List.mem_filter] at hc
    obtain ⟨hmem, hne'⟩ := hc
    rw [List.mem_map] at hmem
    obtain ⟨p, hp, rfl⟩ := hmem
    refine ⟨by simpa [List.isEmpty_iff] using hne', ?_⟩
    have h1 : SubstrOf p text := by
      simpa using splitParas_substrOf text [] p hp
    have h3 := normalizeWs_substrOf (substrOf_trans (strip_substrOf p) h1)
    simpa using h3
  · by_cases hm2 : method = "sentence"
    · subst hm2
      simp only [split_story, if_neg (by decide : ¬("sentence" : String) = "paragraph"),
        if_pos rfl, if_true] at hc
      rw [List.mem_map] at hc
      obtain ⟨s, hs, rfl⟩ := hc
      refine ⟨by simp, ?_⟩
      rw [if_pos rfl, List.dropLast_concat]
      rw [List.mem_filter] at hs
      have h1 : SubstrOf s text := by
        simpa [splitSents] using splitSentsAux_substrOf text (some []) s hs.1
      exact normalizeWs_substrOf (substrOf_trans (strip_substrOf s) h1)
    · by_cases hm3 : method = "length"
      · subst hm3
        simp only [split_story, if_neg (by decide : ¬("length" : String) = "paragraph"),
          if_neg (by decide : ¬("length" : String) = "sentence"), if_pos rfl,
          if_true] at hc
        rw [List.mem_map] at hc
        obtain ⟨g, hg, rfl⟩ := hc
        have hgne : g ≠ [] := packWords_mem_ne_nil (words text) [] 0 g hg
        obtain ⟨L1, L2, hL⟩ := List.append_of_mem hg
        have hflat : words text = L1.flatten ++ g ++ L2.flatten := by
          have hpf := packWords_flatten (words text) [] 0
          rw [hL] at hpf
          simp only [List.nil_append] at hpf
          rw [← hpf]
          simp [List.flatten_append, List.append_assoc]
        have hwords : ∀ w ∈ g, w ≠ [] ∧ ∀ ch ∈ w, isWs ch = false := by
          intro w hw
          refine words_sound text w ?_
          rw [hflat]
          exact List.mem_append.mpr (Or.inl (List.mem_append.mpr (Or.inr hw)))
        have hnorm : normalizeWs (joinSp g) = joinSp g := by
          rw [normalizeWs, words_joinSp g hwords]
        constructor
        · cases g with
          | nil => exact absurd rfl hgne
          | cons w g' => exact joinSp_ne_nil g' (hwords w (by simp)).1
        · rw [if_neg (by decide : ¬("length" : String) = "sentence"), hnorm,
            normalizeWs, hflat]
          exact joinSp_slice_substrOf L1.flatten g L2.flatten
      · rw [split_story, if_neg hm1, if_neg hm2, if_neg hm3] at hc
        simp only [List.mem_singleton] at hc
        subst hc
        refine ⟨hne, ?_⟩
        rw [if_neg hm2]
        exact substrOf_refl _

/-- Witness for `split_story_units` at the paragraph-policy scenario input and
its first returned unit. -/
theorem split_story_units_witness :
    (("Para one.\n\nPara two.".toList ≠ [])
      ∧ "Para one.".toList ∈ split_story ("Para one.\n\nPara two.".toList) "paragraph")
    ∧ ("Para one.".toList ≠ []
       ∧ SubstrOf (normalizeWs (if ("paragraph" : String) = "sentence"
            then ("Para one.".toList).dropLast else "Para one.".toList))
          (normalizeWs ("Para one.\n\nPara two.".toList))) :=
  ⟨⟨by decide, by decide⟩,
   split_story_units ("Para one.\n\nPara two.".toList) "paragraph" ("Para one.".toList)
     (by decide) (by decide)⟩

end CSMApps
